import Mathlib

set_option maxHeartbeats 1000000

/-!
Shallow embedding of the wordle-helper constraint/inference engine
(src/lib/analyze.ts, src/lib/constraints.ts, src/lib/filter.ts).

Words are lists of characters.  JavaScript objects and `Map`s keyed by
letters, positions or patterns are modelled as association lists with
first-match lookup, in-place update of an existing key and append of a
new key (the iteration-order semantics of JS objects and maps).
JavaScript `Set`s are insertion-ordered duplicate-free lists.
Fractional results (JS floating-point division) are rationals.
-/

namespace WH

/-- Colour symbols of a Wordle pattern: `g` green match, `y` yellow present,
`b` black/grey absent (the characters used by `getPattern`). -/
inductive Sym
  | g
  | y
  | b
deriving DecidableEq

/-- First pass of `getPattern` (analyze.ts lines 20–26): positions where guess
and answer agree become green and both letters are consumed (set to `null`);
all other positions keep the initial `'b'` and their letters. -/
def pass1 : List Char → List Char → List Sym × List (Option Char) × List (Option Char)
  | gc :: gs, ac :: ans =>
    let r := pass1 gs ans
    if gc = ac then (Sym.g :: r.1, none :: r.2.1, none :: r.2.2)
    else (Sym.b :: r.1, some gc :: r.2.1, some ac :: r.2.2)
  | _, _ => ([], [], [])

/-- `answerCh.indexOf(c)` followed by `answerCh[j] = null` (analyze.ts line
29–30): consume the first remaining occurrence of `c` in the working answer,
returning `none` when `c` does not remain. -/
def consume (c : Char) : List (Option Char) → Option (List (Option Char))
  | [] => none
  | a :: rest =>
    if a = some c then some (none :: rest)
    else (consume c rest).map (fun r => a :: r)

/-- Second pass of `getPattern` (analyze.ts lines 27–31): each unconsumed
guess letter that still occurs in the working answer becomes yellow and
consumes that occurrence; otherwise the result entry is left unchanged. -/
def pass2 : List (Option Char) → List Sym → List (Option Char) → List Sym × List (Option Char)
  | some c :: gs, r :: rs, ansl =>
    (match consume c ansl with
     | some ansl2 => let p := pass2 gs rs ansl2; (Sym.y :: p.1, p.2)
     | none => let p := pass2 gs rs ansl; (r :: p.1, p.2))
  | none :: gs, r :: rs, ansl => let p := pass2 gs rs ansl; (r :: p.1, p.2)
  | _, _, ansl => ([], ansl)

/-- `getPattern` (analyze.ts lines 15–33): the official two-pass colour
pattern of a guess against a known answer. -/
def getPattern (guess answer : List Char) : List Sym :=
  let p := pass1 guess answer
  (pass2 p.2.1 p.1 p.2.2).1

/-- Number of positions where the guess letter is `c` and the pattern symbol
is not grey (i.e. the letter was marked match or present). -/
def confCount (c : Char) : List Char → List Sym → Nat
  | g0 :: gs, s :: ss =>
    (if g0 = c then if s = Sym.b then 0 else 1 else 0) + confCount c gs ss
  | _, _ => 0

/-- Number of positions where guess and answer agree on the letter `c`
(the pass-1 green marks for `c`). -/
def greenAgree (c : Char) : List Char → List Char → Nat
  | g0 :: gs, a0 :: ans =>
    (if g0 = a0 then if g0 = c then 1 else 0 else 0) + greenAgree c gs ans
  | _, _ => 0

/-- Number of positions whose unconsumed guess letter is `c` and whose
pattern symbol is not grey. -/
def pendingConf (c : Char) : List (Option Char) → List Sym → Nat
  | g0 :: gs, s :: ss =>
    (if g0 = some c then if s = Sym.b then 0 else 1 else 0) + pendingConf c gs ss
  | _, _ => 0

/-- Number of remaining (unconsumed) copies of letter `c` in a working list. -/
def cntSome (c : Char) : List (Option Char) → Nat
  | [] => 0
  | a :: rest => (if a = some c then 1 else 0) + cntSome c rest

/-- Insert-or-increment on an association list, mirroring
`counts.set(k, (counts.get(k) ?? 0) + 1)` on a JS `Map` or `obj[k] =
(obj[k] ?? 0) + 1` on a JS object: an existing key keeps its place, a new
key is appended. -/
def bump {α : Type} [DecidableEq α] (m : List (α × Nat)) (k : α) : List (α × Nat) :=
  match m with
  | [] => [(k, 1)]
  | p :: rest => if p.1 = k then (p.1, p.2 + 1) :: rest else p :: bump rest k

/-- Keys of an association list, in iteration order. -/
def keysOf {α β : Type} (m : List (α × β)) : List α := m.map Prod.fst

/-- Result of `scoreGuess`: bucket count and mean bucket size. -/
structure Score where
  partitions : Nat
  avgGroupSize : ℚ

/-- `scoreGuess` (analyze.ts lines 41–52): tally the colour pattern of the
guess against every candidate in a map keyed by pattern; `partitions` is the
number of keys and `avgGroupSize` the plain division of the candidate count
by the partition count. -/
def scoreGuess (guess : List Char) (candidates : List (List Char)) : Score :=
  let counts := candidates.foldl (fun m answer => bump m (getPattern guess answer)) []
  let partitions := counts.length
  { partitions := partitions,
    avgGroupSize := (candidates.length : ℚ) / (partitions : ℚ) }

/-- First-match lookup in an association list (`obj[k]` on a JS object whose
keys are unique). -/
def lookup {α β : Type} [DecidableEq α] (m : List (α × β)) (k : α) : Option β :=
  match m with
  | [] => none
  | p :: rest => if p.1 = k then some p.2 else lookup rest k

/-- Lookup with a default (`obj[k] ?? d`). -/
def lookupD {α β : Type} [DecidableEq α] (m : List (α × β)) (k : α) (d : β) : β :=
  (lookup m k).getD d

/-- The compiled constraints record (types.ts `Constraints`): JS records
become association lists, the JS `Set` of excluded letters becomes an
insertion-ordered duplicate-free list. -/
structure Constraints where
  greens : List (Nat × Char)
  yellowPositions : List (Char × List Nat)
  minCount : List (Char × Nat)
  maxCount : List (Char × Nat)
  excluded : List Char
deriving DecidableEq

/-- `countLetters` (filter.ts lines 50–56): per-letter occurrence tally of a
word. -/
def countLetters (word : List Char) : List (Char × Nat) := word.foldl bump []

/-- The predicate `filterWords` applies to each word (filter.ts lines 13–46):
green exact-position checks, excluded-letter checks, yellow
presence/position checks, then min/max occurrence-count checks. -/
def passesFilter (cs : Constraints) (word : List Char) : Bool :=
  (cs.greens.all fun p => decide (word.get? p.1 = some p.2)) &&
  (cs.excluded.all fun c => decide (¬c ∈ word)) &&
  (cs.yellowPositions.all fun p =>
    decide (p.1 ∈ word) && (p.2.all fun pos => decide (¬word.get? pos = some p.1))) &&
  (cs.minCount.all fun p => decide (p.2 ≤ lookupD (countLetters word) p.1 0)) &&
  (cs.maxCount.all fun p => decide (lookupD (countLetters word) p.1 0 ≤ p.2))

/-- `filterWords` (filter.ts lines 10–47). -/
def filterWords (words : List (List Char)) (cs : Constraints) : List (List Char) :=
  words.filter (fun word => passesFilter cs word)

/-- The empty constraints value: no greens, yellows, counts or exclusions. -/
def emptyConstraints : Constraints := ⟨[], [], [], [], []⟩

/-- Insert `a` into a list before the first element `x` with `le a x`. -/
def orderedInsert {α : Type} (le : α → α → Bool) (a : α) : List α → List α
  | [] => [a]
  | x :: xs => if le a x then a :: x :: xs else x :: orderedInsert le a xs

/-- Stable sort modelling JS `Array.prototype.sort` with a consistent
comparator: ECMAScript specifies the result to be the stable,
comparator-consistent reordering of the input, which insertion sort
computes. -/
def stableSort {α : Type} (le : α → α → Bool) : List α → List α
  | [] => []
  | x :: xs => orderedInsert le x (stableSort le xs)

/-- In-place update of an association list (`obj[k] = v` on a JS object: an
existing key keeps its place, a new key is appended). -/
def setR {α β : Type} [DecidableEq α] (m : List (α × β)) (k : α) (v : β) :
    List (α × β) :=
  match m with
  | [] => [(k, v)]
  | p :: rest => if p.1 = k then (k, v) :: rest else p :: setR rest k v

/-- One tile of the per-word scan of `analyzeCandidates` (analyze.ts lines
99–107): the state is (overallCount, byPosCount, seen); the overall tally
counts a letter once per word via `seen`, the per-position tally counts
every tile. -/
def tileScan
    (st : List (Char × Nat) × List (Nat × List (Char × Nat)) × List Char)
    (p : Nat × Char) :
    List (Char × Nat) × List (Nat × List (Char × Nat)) × List Char :=
  let seen := st.2.2
  let overallC := if p.2 ∈ seen then st.1 else bump st.1 p.2
  let seen2 := if p.2 ∈ seen then seen else seen ++ [p.2]
  let bp := setR st.2.1 p.1 (bump (lookupD st.2.1 p.1 []) p.2)
  (overallC, bp, seen2)

/-- Per-word step of `analyzeCandidates`: scan the first five tiles of the
word with a fresh `seen` set. -/
def wordScan (acc : List (Char × Nat) × List (Nat × List (Char × Nat)))
    (word : List Char) :
    List (Char × Nat) × List (Nat × List (Char × Nat)) :=
  let r := ((word.take 5).enum).foldl tileScan (acc.1, acc.2, [])
  (r.1, r.2.1)

/-- Result record of `analyzeCandidates` (types.ts `CandidateAnalysis`). -/
structure CandidateAnalysis where
  count : Nat
  overall : List (Char × ℚ)
  byPosition : List (Nat × List (Char × ℚ))
  topExplorationLetters : List Char

/-- `analyzeCandidates` (analyze.ts lines 88–125): frequency statistics over
the candidate list, plus the ten letters whose overall frequency is closest
to one half. -/
def analyzeCandidates (candidates : List (List Char)) : CandidateAnalysis :=
  let n := candidates.length
  if n = 0 then ⟨0, [], [], []⟩
  else
    let init : List (Nat × List (Char × Nat)) :=
      [(0, []), (1, []), (2, []), (3, []), (4, [])]
    let tallies := candidates.foldl wordScan (([] : List (Char × Nat)), init)
    let overall := tallies.1.map (fun p => (p.1, (p.2 : ℚ) / (n : ℚ)))
    let byPosition := tallies.2.map (fun p =>
      (p.1, p.2.map (fun q => (q.1, (q.2 : ℚ) / (n : ℚ)))))
    let letters := ((stableSort
        (fun a b => decide (|a.2 - (1 : ℚ)/2| ≤ |b.2 - (1 : ℚ)/2|))
        overall).take 10).map Prod.fst
    ⟨n, overall, byPosition, letters⟩

/-- Positivity of all tally values in an association list. -/
def valuesPos {α : Type} (m : List (α × Nat)) : Prop := ∀ p ∈ m, 0 < p.2

/-- One probe result (types.ts `ProbeWord`). -/
structure ProbeWord where
  word : List Char
  partitions : Nat
  avgGroupSize : ℚ
  isCandidate : Bool
deriving DecidableEq

/-- The comparator of `getTopProbeWords` (analyze.ts lines 72–76) as a total
preorder: `probeLE a b` holds when the comparator orders `a` no later than
`b`, i.e. descending partitions with ties ascending by average group size. -/
def probeLE (a b : ProbeWord) : Bool :=
  decide (b.partitions < a.partitions) ||
    (decide (a.partitions = b.partitions) &&
      decide (a.avgGroupSize ≤ b.avgGroupSize))

/-- Score one vocabulary word against the candidates (analyze.ts lines
68–71). -/
def scoreProbe (candidates : List (List Char)) (word : List Char) : ProbeWord :=
  let s := scoreGuess word candidates
  { word := word, partitions := s.partitions, avgGroupSize := s.avgGroupSize,
    isCandidate := decide (word ∈ candidates) }

/-- `getTopProbeWords` (analyze.ts lines 60–78): empty below one or above
150 candidates, otherwise score the vocabulary, sort by the comparator and
truncate. -/
def getTopProbeWords (candidates vocabulary : List (List Char))
    (limit : Nat) : List ProbeWord :=
  if candidates.length = 0 ∨ 150 < candidates.length then []
  else (stableSort probeLE (vocabulary.map (scoreProbe candidates))).take limit

/-- Tile evidence states (types.ts `TileState`). -/
inductive TileState
  | empty
  | unknown
  | grey
  | yellow
  | green
deriving DecidableEq

/-- One tile: optional letter (none for the JS empty string) and state. -/
structure TileData where
  letter : Option Char
  state : TileState
deriving DecidableEq

/-- Row-skip test of constraints.ts line 22: every tile has no letter or an
`empty`/`unknown` state. -/
def rowSkipped (row : List TileData) : Bool :=
  row.all fun t =>
    decide (t.letter = none ∨ t.state = TileState.empty ∨ t.state = TileState.unknown)

/-- One tile of the per-row tally loop (constraints.ts lines 34–42): state
is (confirmedInRow, greyInRow). -/
def tallyStep (acc : List (Char × Nat) × List (Char × Nat)) (t : TileData) :
    List (Char × Nat) × List (Char × Nat) :=
  match t.letter with
  | none => acc
  | some c =>
    match t.state with
    | TileState.green => (bump acc.1 c, acc.2)
    | TileState.yellow => (bump acc.1 c, acc.2)
    | TileState.grey => (acc.1, bump acc.2 c)
    | _ => acc

/-- Per-row tallies (constraints.ts lines 26–42): confirmed (green or
yellow) and grey occurrence counts per letter. The source also tallies
`totalInRow`, which no later code reads; it is not modelled. -/
def rowTallies (row : List TileData) : List (Char × Nat) × List (Char × Nat) :=
  row.foldl tallyStep ([], [])

/-- One confirmed letter of the min/max update loop (constraints.ts lines
45–58). -/
def minMaxStep (grey : List (Char × Nat))
    (mm : List (Char × Nat) × List (Char × Nat)) (p : Char × Nat) :
    List (Char × Nat) × List (Char × Nat) :=
  let mins := setR mm.1 p.1 (max (lookupD mm.1 p.1 0) p.2)
  let maxs :=
    if 0 < lookupD grey p.1 0 then
      match lookup mm.2 p.1 with
      | none => setR mm.2 p.1 p.2
      | some old => if p.2 < old then setR mm.2 p.1 p.2 else mm.2
    else mm.2
  (mins, maxs)

/-- constraints.ts lines 44–58: for every letter confirmed in this row,
raise the global minimum to the row's confirmed count, and when the row
also has grey copies of the letter tighten the global maximum. -/
def updateMinMax (mins maxs conf grey : List (Char × Nat)) :
    List (Char × Nat) × List (Char × Nat) :=
  conf.foldl (minMaxStep grey) (mins, maxs)

/-- `yellowPositions[letter].add(col)` with on-demand set creation
(constraints.ts lines 67–71). -/
def addPos (m : List (Char × List Nat)) (c : Char) (pos : Nat) :
    List (Char × List Nat) :=
  match lookup m c with
  | none => m ++ [(c, [pos])]
  | some s => setR m c (if pos ∈ s then s else s ++ [pos])

/-- `Set.add` on an insertion-ordered set. -/
def insS (s : List Char) (c : Char) : List Char :=
  if c ∈ s then s else s ++ [c]

/-- `Set.delete` on an insertion-ordered set. -/
def delS (s : List Char) (c : Char) : List Char :=
  s.filter fun x => decide (¬x = c)

/-- One tile of the greens/yellows/exclusions loop (constraints.ts lines
61–80); a grey tile excludes its letter only when the letter has no
confirmed occurrence in this row. -/
def tileApply (conf : List (Char × Nat)) (cs : Constraints)
    (p : Nat × TileData) : Constraints :=
  match p.2.letter with
  | none => cs
  | some c =>
    match p.2.state with
    | TileState.green => { cs with greens := setR cs.greens p.1 c }
    | TileState.yellow =>
      { cs with yellowPositions := addPos cs.yellowPositions c p.1 }
    | TileState.grey =>
      if lookupD conf c 0 = 0 then { cs with excluded := insS cs.excluded c }
      else cs
    | _ => cs

/-- constraints.ts lines 60–80. -/
def applyTiles (cs : Constraints) (conf : List (Char × Nat))
    (row : List TileData) : Constraints :=
  row.enum.foldl (tileApply conf) cs

/-- One full row of the main loop of `buildConstraintsFromGrid`
(constraints.ts lines 20–81). -/
def processRow (cs : Constraints) (row : List TileData) : Constraints :=
  if rowSkipped row then cs
  else
    let t := rowTallies row
    let mm := updateMinMax cs.minCount cs.maxCount t.1 t.2
    applyTiles { cs with minCount := mm.1, maxCount := mm.2 } t.1 row

/-- Cleanup of constraints.ts lines 83–96: drop from `excluded` every letter
with a positive minimum count, every yellow letter and every green letter. -/
def cleanupExcluded (cs : Constraints) : Constraints :=
  let ex1 := cs.minCount.foldl
    (fun ex p => if 0 < lookupD cs.minCount p.1 0 then delS ex p.1 else ex)
    cs.excluded
  let ex2 := cs.yellowPositions.foldl (fun ex p => delS ex p.1) ex1
  let ex3 := cs.greens.foldl (fun ex p => delS ex p.2) ex2
  { cs with excluded := ex3 }

/-- `buildConstraintsFromGrid` (constraints.ts lines 13–99). -/
def buildConstraintsFromGrid (grid : List (List TileData)) : Constraints :=
  cleanupExcluded (grid.foldl processRow emptyConstraints)

/-- Conflict kinds of `detectConflicts` (types.ts `Conflict`). -/
inductive ConflictType
  | greenAlsoExcluded
  | yellowAlsoExcluded
  | impossibleCount
deriving DecidableEq

/-- A reported conflict: kind and offending letter (the UI description
string is presentation only and not modelled). -/
structure Conflict where
  ctype : ConflictType
  letter : Char
deriving DecidableEq

/-- `detectConflicts` (analyze.ts lines 131–168). -/
def detectConflicts (cs : Constraints) : List Conflict :=
  (cs.greens.filterMap fun p =>
    if p.2 ∈ cs.excluded then some ⟨ConflictType.greenAlsoExcluded, p.2⟩
    else none)
  ++ (cs.yellowPositions.filterMap fun p =>
    if p.1 ∈ cs.excluded then some ⟨ConflictType.yellowAlsoExcluded, p.1⟩
    else none)
  ++ (cs.minCount.filterMap fun p =>
    match lookup cs.maxCount p.1 with
    | some mx =>
      if mx < lookupD cs.minCount p.1 0 then
        some ⟨ConflictType.impossibleCount, p.1⟩
      else none
    | none => none)

/-- A small concrete grid: row 1 proves `l` exactly once and excludes `z`,
row 2 confirms `l` three times and excludes `x` and `y`, creating an
impossible count for `l`. -/
def demoGrid : List (List TileData) :=
  [[⟨some 'l', TileState.green⟩, ⟨some 'l', TileState.grey⟩,
    ⟨some 'z', TileState.grey⟩, ⟨some 'a', TileState.green⟩,
    ⟨some 'b', TileState.yellow⟩],
   [⟨some 'l', TileState.green⟩, ⟨some 'l', TileState.yellow⟩,
    ⟨some 'l', TileState.yellow⟩, ⟨some 'x', TileState.grey⟩,
    ⟨some 'y', TileState.grey⟩]]

/-- Confirmed (green or yellow) occurrences of letter `c` in one row. -/
def rowConfirmedCount (c : Char) (row : List TileData) : Nat :=
  row.countP fun t =>
    decide (t.letter = some c ∧
      (t.state = TileState.green ∨ t.state = TileState.yellow))

/-- Grey occurrences of letter `c` in one row. -/
def rowGreyCount (c : Char) (row : List TileData) : Nat :=
  row.countP fun t => decide (t.letter = some c ∧ t.state = TileState.grey)

/-- One row's effect on the global minimum count of letter `c`: when the row
confirms `c`, raise the running minimum to the row's confirmed count. -/
def minStep (c : Char) (o : Option Nat) (row : List TileData) : Option Nat :=
  if 0 < rowConfirmedCount c row then
    some (max (o.getD 0) (rowConfirmedCount c row))
  else o

/-- One row's effect on the global maximum count of letter `c`: when the row
both confirms `c` and has grey copies of `c`, tighten the running maximum
(+infinity when unset) to the row's confirmed count. -/
def maxStep (c : Char) (o : Option Nat) (row : List TileData) : Option Nat :=
  if 0 < rowConfirmedCount c row ∧ 0 < rowGreyCount c row then
    some (match o with
      | none => rowConfirmedCount c row
      | some old => min old (rowConfirmedCount c row))
  else o

/-- A row with the letter 'l' three times — one green, one yellow, one
grey — so two confirmed plus one grey copy. -/
def demoDupRow : List TileData :=
  [⟨some 'l', TileState.green⟩, ⟨some 'e', TileState.grey⟩,
   ⟨some 'l', TileState.yellow⟩, ⟨some 'l', TileState.grey⟩,
   ⟨some 'o', TileState.grey⟩]

theorem pass1_self (w : List Char) :
    pass1 w w = (List.replicate w.length Sym.g,
      List.replicate w.length none, List.replicate w.length none) := by
  induction w with
  | nil => rfl
  | cons a l ih => simp [pass1, ih, List.replicate]

theorem pass2_all_none (n : Nat) (rs : List Sym) (ansl : List (Option Char))
    (h : rs.length = n) : pass2 (List.replicate n none) rs ansl = (rs, ansl) := by
  induction n generalizing rs ansl with
  | zero => cases rs with
    | nil => rfl
    | cons r rs => simp at h
  | succ n ih =>
    cases rs with
    | nil => simp at h
    | cons r rs =>
      simp only [List.length_cons, Nat.succ.injEq] at h
      simp [List.replicate, pass2, ih rs ansl h]

/-- C7: for every 5-letter word, the pattern of the word against itself is
the all-green (all-match) pattern. -/
theorem getPattern_self_all_match (w : List Char) (h : w.length = 5) :
    getPattern w w = List.replicate 5 Sym.g := by
  have h1 := pass1_self w
  unfold getPattern
  rw [h1]
  simp only
  rw [pass2_all_none w.length (List.replicate w.length Sym.g) _ (by simp), h]

/-- Witness for C7 at the concrete word "crane". -/
theorem getPattern_self_all_match_witness :
    getPattern ['c', 'r', 'a', 'n', 'e'] ['c', 'r', 'a', 'n', 'e'] =
      List.replicate 5 Sym.g :=
  getPattern_self_all_match ['c', 'r', 'a', 'n', 'e'] (by decide)

theorem none_eq_some_char (c : Char) : ((none : Option Char) = some c) = False := by
  simp

theorem sym_y_eq_b : (Sym.y = Sym.b) = False := by
  simp

theorem sym_g_eq_b : (Sym.g = Sym.b) = False := by
  simp

theorem consume_cntSome (c d : Char) (ansl ansl2 : List (Option Char))
    (h : consume c ansl = some ansl2) :
    cntSome d ansl2 + (if d = c then 1 else 0) = cntSome d ansl := by
  induction ansl generalizing ansl2 with
  | nil => simp [consume] at h
  | cons a rest ih =>
    simp only [consume] at h
    by_cases hac : a = some c
    · rw [if_pos hac] at h
      injection h with h2
      subst h2
      subst hac
      simp only [cntSome]
      by_cases hdc : d = c
      · subst hdc; simp; omega
      · have h3 : ¬((some c : Option Char) = some d) :=
          fun hx => hdc (Option.some.inj hx).symm
        simp [hdc, h3]
    · rw [if_neg hac] at h
      cases hrec : consume c rest with
      | none => rw [hrec] at h; simp at h
      | some r =>
        rw [hrec, Option.map_some'] at h
        injection h with h2
        subst h2
        simp only [cntSome]
        have := ih r hrec
        omega

theorem greenAgree_add_cntSome_le (c : Char) (guess answer : List Char) :
    greenAgree c guess answer + cntSome c (pass1 guess answer).2.2
      ≤ answer.count c := by
  induction guess generalizing answer with
  | nil =>
    cases answer <;> simp [greenAgree, pass1, cntSome]
  | cons gc gs ih =>
    cases answer with
    | nil => simp [greenAgree, pass1, cntSome]
    | cons ac ans =>
      have := ih ans
      simp only [List.count_cons, beq_iff_eq]
      by_cases hga : gc = ac
      · subst hga
        simp only [greenAgree, pass1, if_pos rfl, cntSome, none_eq_some_char,
          if_false, eq_self_iff_true, if_true]
        by_cases hc : gc = c
        · simp only [if_pos hc]
          omega
        · simp only [if_neg hc]
          omega
      · simp only [greenAgree, pass1, if_neg hga, cntSome, Option.some.injEq]
        by_cases hc : ac = c
        · simp only [if_pos hc]
          omega
        · simp only [if_neg hc]
          omega

theorem pendingConf_pass2_le (c : Char) (gs : List (Option Char))
    (rs : List Sym) (ansl : List (Option Char)) :
    pendingConf c gs (pass2 gs rs ansl).1
      ≤ pendingConf c gs rs + cntSome c ansl := by
  induction gs generalizing rs ansl with
  | nil => simp [pendingConf, pass2]
  | cons g0 gs ih =>
    cases rs with
    | nil =>
      cases g0 <;> simp [pendingConf, pass2]
    | cons r rs =>
      cases g0 with
      | none =>
        have := ih rs ansl
        simp only [pass2, pendingConf, none_eq_some_char, if_false]
        omega
      | some d =>
        rcases hcon : consume d ansl with _ | ansl2
        · have := ih rs ansl
          simp only [pass2, hcon, pendingConf]
          omega
        · have := ih rs ansl2
          have hcc := consume_cntSome d c ansl ansl2 hcon
          simp only [pass2, hcon, pendingConf, Option.some.injEq, sym_y_eq_b,
            if_false]
          by_cases hdc : d = c
          · subst hdc
            simp only [eq_self_iff_true, if_true] at hcc ⊢
            have hle : (if r = Sym.b then (0 : Nat) else 1) ≤ 1 := by
              split <;> omega
            omega
          · rw [if_neg (fun h => hdc h.symm)] at hcc
            simp only [if_neg hdc]
            omega

theorem confCount_pass2_le (c : Char) (guess answer : List Char)
    (ansl : List (Option Char)) :
    confCount c guess (pass2 (pass1 guess answer).2.1 (pass1 guess answer).1 ansl).1
      ≤ pendingConf c (pass1 guess answer).2.1
          (pass2 (pass1 guess answer).2.1 (pass1 guess answer).1 ansl).1
        + greenAgree c guess answer := by
  induction guess generalizing answer ansl with
  | nil =>
    cases answer <;> simp [confCount, pendingConf, greenAgree, pass1, pass2]
  | cons gc gs ih =>
    cases answer with
    | nil => simp [confCount, pendingConf, greenAgree, pass1, pass2]
    | cons ac ans =>
      by_cases hga : gc = ac
      · subst hga
        have := ih ans ansl
        simp only [pass1, if_pos rfl, pass2, confCount, pendingConf, greenAgree,
          none_eq_some_char, if_false, sym_g_eq_b, eq_self_iff_true, if_true]
        by_cases hc : gc = c
        · simp only [if_pos hc]
          omega
        · simp only [if_neg hc]
          omega
      · simp only [pass1, if_neg hga, confCount, pendingConf, greenAgree]
        rcases hcon : consume gc ansl with _ | ansl2
        · have := ih ans ansl
          simp only [pass2, hcon, confCount, pendingConf, Option.some.injEq]
          by_cases hc : gc = c
          · simp only [if_pos hc, if_neg hga]
            omega
          · simp only [if_neg hc, if_neg hga]
            omega
        · have := ih ans ansl2
          simp only [pass2, hcon, confCount, pendingConf, Option.some.injEq,
            sym_y_eq_b, if_false]
          by_cases hc : gc = c
          · simp only [if_pos hc, if_neg hga]
            omega
          · simp only [if_neg hc, if_neg hga]
            omega

theorem pendingConf_pass1_zero (c : Char) (guess answer : List Char) :
    pendingConf c (pass1 guess answer).2.1 (pass1 guess answer).1 = 0 := by
  induction guess generalizing answer with
  | nil => cases answer <;> simp [pendingConf, pass1]
  | cons gc gs ih =>
    cases answer with
    | nil => simp [pendingConf, pass1]
    | cons ac ans =>
      have := ih ans
      by_cases hga : gc = ac
      · simp only [pass1, if_pos hga, pendingConf, none_eq_some_char, if_false]
        omega
      · simp only [pass1, if_neg hga, pendingConf, Option.some.injEq,
          eq_self_iff_true, if_true]
        by_cases hc : gc = c
        · simp only [if_pos hc]
          omega
        · simp only [if_neg hc]
          omega

theorem confCount_getPattern_le (c : Char) (guess answer : List Char) :
    confCount c guess (getPattern guess answer) ≤ answer.count c := by
  have hG := confCount_pass2_le c guess answer (pass1 guess answer).2.2
  have hB := pendingConf_pass2_le c (pass1 guess answer).2.1
    (pass1 guess answer).1 (pass1 guess answer).2.2
  have hH := pendingConf_pass1_zero c guess answer
  have hA := greenAgree_add_cntSome_le c guess answer
  simp only [getPattern]
  omega

/-- C2: for every pair of 5-letter words and every letter, the number of
guess positions holding that letter and marked match or present by
`getPattern` never exceeds the letter's occurrence count in the answer. -/
theorem getPattern_conf_le_answer_count (guess answer : List Char) (c : Char)
    (hg : guess.length = 5) (ha : answer.length = 5) :
    confCount c guess (getPattern guess answer) ≤ answer.count c :=
  confCount_getPattern_le c guess answer

/-- Witness for C2 at guess "geese" against answer "eerie" for letter 'e'. -/
theorem getPattern_conf_le_answer_count_witness :
    confCount 'e' ['g', 'e', 'e', 's', 'e']
        (getPattern ['g', 'e', 'e', 's', 'e'] ['e', 'e', 'r', 'i', 'e'])
      ≤ (['e', 'e', 'r', 'i', 'e'] : List Char).count 'e' :=
  getPattern_conf_le_answer_count ['g', 'e', 'e', 's', 'e']
    ['e', 'e', 'r', 'i', 'e'] 'e' (by decide) (by decide)

theorem bump_keysOf {α : Type} [DecidableEq α] (m : List (α × Nat)) (k : α) :
    keysOf (bump m k) = if k ∈ keysOf m then keysOf m else keysOf m ++ [k] := by
  induction m with
  | nil => simp [bump, keysOf]
  | cons p rest ih =>
    by_cases hpk : p.1 = k
    · simp [bump, keysOf, if_pos hpk, hpk]
    · have hne : ¬(k = p.1) := fun h => hpk h.symm
      simp only [bump, if_neg hpk, keysOf, List.map_cons] at *
      rw [ih]
      by_cases hk : k ∈ rest.map Prod.fst
      · simp [hk, hne]
      · simp [hk, hne]

theorem foldl_bump_keys_toFinset {α : Type} [DecidableEq α]
    (l : List α) (m : List (α × Nat)) :
    (keysOf (l.foldl bump m)).toFinset = (keysOf m).toFinset ∪ l.toFinset := by
  induction l generalizing m with
  | nil => simp
  | cons a l ih =>
    rw [List.foldl_cons, ih (bump m a), bump_keysOf]
    by_cases ha : a ∈ keysOf m
    · rw [if_pos ha]
      ext x
      simp only [Finset.mem_union, List.mem_toFinset, List.mem_cons]
      constructor
      · rintro (hx | hx)
        · exact Or.inl hx
        · exact Or.inr (Or.inr hx)
      · rintro (hx | rfl | hx)
        · exact Or.inl hx
        · exact Or.inl ha
        · exact Or.inr hx
    · rw [if_neg ha]
      ext x
      simp only [Finset.mem_union, List.mem_toFinset, List.mem_append,
        List.mem_cons, List.mem_singleton]
      tauto

theorem foldl_bump_keys_nodup {α : Type} [DecidableEq α]
    (l : List α) (m : List (α × Nat)) (h : (keysOf m).Nodup) :
    (keysOf (l.foldl bump m)).Nodup := by
  induction l generalizing m with
  | nil => exact h
  | cons a l ih =>
    rw [List.foldl_cons]
    refine ih (bump m a) ?_
    rw [bump_keysOf]
    by_cases ha : a ∈ keysOf m
    · rwa [if_pos ha]
    · rw [if_neg ha]
      simp [List.nodup_append, h, ha]

theorem foldl_bump_length {α : Type} [DecidableEq α] (l : List α) :
    (l.foldl bump []).length = l.dedup.length := by
  have h1 : (l.foldl bump []).length = (keysOf (l.foldl bump [])).length := by
    simp [keysOf]
  have h2 : (keysOf (l.foldl bump [])).Nodup :=
    foldl_bump_keys_nodup l [] (by simp [keysOf])
  have h3 : (keysOf (l.foldl bump [])).toFinset = l.toFinset := by
    rw [foldl_bump_keys_toFinset]
    simp [keysOf]
  rw [h1, ← List.toFinset_card_of_nodup h2, h3, List.card_toFinset]

/-- C6: `scoreGuess` reports a partition count equal to the number of
distinct colour patterns the guess induces over the candidates, and an
average group size exactly equal to the candidate count divided by the
partition count. -/
theorem scoreGuess_partitions_distinct_avg_exact
    (guess : List Char) (candidates : List (List Char)) :
    (scoreGuess guess candidates).partitions
        = ((candidates.map (getPattern guess)).dedup).length ∧
      (scoreGuess guess candidates).avgGroupSize
        = (candidates.length : ℚ) / ((scoreGuess guess candidates).partitions : ℚ) := by
  constructor
  · show (candidates.foldl (fun m answer => bump m (getPattern guess answer)) []).length = _
    have h : (candidates.map (getPattern guess)).foldl bump []
        = candidates.foldl (fun m answer => bump m (getPattern guess answer)) [] :=
      List.foldl_map (getPattern guess) bump candidates []
    rw [← h, foldl_bump_length]
  · rfl

theorem bump_length_le {α : Type} [DecidableEq α] (m : List (α × Nat)) (k : α) :
    m.length ≤ (bump m k).length := by
  induction m with
  | nil => simp [bump]
  | cons p rest ih =>
    by_cases hpk : p.1 = k
    · simp [bump, if_pos hpk]
    · simpa [bump, if_neg hpk] using ih

theorem foldl_bump_length_mono {α : Type} [DecidableEq α]
    (l : List α) (m : List (α × Nat)) :
    m.length ≤ (l.foldl bump m).length := by
  induction l generalizing m with
  | nil => simp
  | cons a l ih =>
    rw [List.foldl_cons]
    exact Nat.le_trans (bump_length_le m a) (ih (bump m a))

/-- C10: a non-empty candidate list always yields at least one partition, so
`avgGroupSize`'s divisor is nonzero; the empty candidate list yields zero
partitions, so the unguarded division `candidates.length / partitions` has a
zero divisor (`0/0`, `NaN` in the JS source's floating point). -/
theorem scoreGuess_partitions_pos_iff_nonempty
    (guess : List Char) (candidates : List (List Char)) :
    (candidates ≠ [] → 1 ≤ (scoreGuess guess candidates).partitions) ∧
      (candidates = [] → (scoreGuess guess candidates).partitions = 0) := by
  constructor
  · intro hne
    cases candidates with
    | nil => exact absurd rfl hne
    | cons a l =>
      show 1 ≤ ((a :: l).foldl (fun m answer => bump m (getPattern guess answer)) []).length
      rw [← List.foldl_map (getPattern guess) bump (a :: l) [], List.map_cons,
        List.foldl_cons]
      have h1 : (bump ([] : List (List Sym × Nat)) (getPattern guess a)).length = 1 := by
        simp [bump]
      calc 1 = (bump ([] : List (List Sym × Nat)) (getPattern guess a)).length :=
            h1.symm
        _ ≤ _ := foldl_bump_length_mono (l.map (getPattern guess)) _
  · rintro rfl
    rfl

/-- Witness for C10: a one-word candidate list has a positive partition
count, and the empty list has partition count zero. -/
theorem scoreGuess_partitions_pos_iff_nonempty_witness :
    1 ≤ (scoreGuess ['c', 'r', 'a', 'n', 'e'] [['s', 't', 'a', 'r', 'e']]).partitions ∧
      (scoreGuess ['c', 'r', 'a', 'n', 'e'] []).partitions = 0 :=
  ⟨(scoreGuess_partitions_pos_iff_nonempty ['c', 'r', 'a', 'n', 'e']
      [['s', 't', 'a', 'r', 'e']]).1 (by decide),
    (scoreGuess_partitions_pos_iff_nonempty ['c', 'r', 'a', 'n', 'e'] []).2 rfl⟩

theorem lookup_mem {α β : Type} [DecidableEq α] {m : List (α × β)} {k : α}
    {v : β} (h : lookup m k = some v) : (k, v) ∈ m := by
  induction m with
  | nil => simp [lookup] at h
  | cons p rest ih =>
    simp only [lookup] at h
    by_cases hpk : p.1 = k
    · rw [if_pos hpk] at h
      injection h with h2
      subst h2
      subst hpk
      exact List.mem_cons_self _ _
    · rw [if_neg hpk] at h
      exact List.mem_cons_of_mem _ (ih h)

theorem lookupD_bump {α : Type} [DecidableEq α] (m : List (α × Nat)) (k c : α) :
    lookupD (bump m k) c 0 = lookupD m c 0 + (if c = k then 1 else 0) := by
  induction m with
  | nil =>
    by_cases hkc : k = c
    · simp [bump, lookup, lookupD, if_pos hkc, hkc.symm]
    · simp [bump, lookup, lookupD, if_neg hkc,
        if_neg (fun h => hkc h.symm : ¬c = k)]
  | cons p rest ih =>
    by_cases hpk : p.1 = k
    · by_cases hpc : p.1 = c
      · have hck : c = k := hpc ▸ hpk
        simp [bump, lookup, lookupD, if_pos hpk, if_pos hpc, if_pos hck]
      · have hck : ¬c = k := fun h => hpc (h ▸ hpk ▸ rfl : p.1 = c)
        simp [bump, lookup, lookupD, if_pos hpk, if_neg hpc, if_neg hck]
    · by_cases hpc : p.1 = c
      · have hck : ¬c = k := fun h => hpk (hpc ▸ h ▸ rfl : p.1 = k)
        simp [bump, lookup, lookupD, if_neg hpk, if_pos hpc, if_neg hck]
      · simpa [bump, lookup, lookupD, if_neg hpk, if_neg hpc] using ih

theorem foldl_bump_lookupD (word : List Char) (m : List (Char × Nat)) (c : Char) :
    lookupD (word.foldl bump m) c 0 = lookupD m c 0 + word.count c := by
  induction word generalizing m with
  | nil => simp
  | cons a w ih =>
    rw [List.foldl_cons, ih (bump m a), lookupD_bump, List.count_cons]
    by_cases hca : c = a
    · simp [if_pos hca, hca, beq_iff_eq]
      omega
    · have : ¬(a = c) := fun h => hca h.symm
      simp [if_neg hca, beq_iff_eq, this]

theorem countLetters_count (word : List Char) (c : Char) :
    lookupD (countLetters word) c 0 = word.count c := by
  have := foldl_bump_lookupD word [] c
  simpa [countLetters, lookupD, lookup] using this

/-- C4: every word surviving `filterWords` contains at least `minCount[l]`
and at most `maxCount[l]` occurrences of each bounded letter `l`. -/
theorem filterWords_count_bounds (vocab : List (List Char)) (cs : Constraints)
    (word : List Char) (l : Char) (k : Nat)
    (hmem : word ∈ filterWords vocab cs) :
    (lookup cs.minCount l = some k → k ≤ word.count l) ∧
      (lookup cs.maxCount l = some k → word.count l ≤ k) := by
  rcases List.mem_filter.mp hmem with ⟨-, hpass⟩
  simp only [passesFilter, Bool.and_eq_true, List.all_eq_true] at hpass
  obtain ⟨⟨⟨⟨-, -⟩, -⟩, hmin⟩, hmax⟩ := hpass
  constructor
  · intro hl
    have hm := hmin (l, k) (lookup_mem hl)
    simp only [decide_eq_true_eq] at hm
    rwa [countLetters_count word l] at hm
  · intro hl
    have hm := hmax (l, k) (lookup_mem hl)
    simp only [decide_eq_true_eq] at hm
    rwa [countLetters_count word l] at hm

/-- Witness for C4: with `minCount['a'] = 1` and `maxCount['a'] = 2`, the
surviving word "aback" has between 1 and 2 letters 'a'. -/
theorem filterWords_count_bounds_witness :
    1 ≤ (['a', 'b', 'a', 'c', 'k'] : List Char).count 'a' ∧
      (['a', 'b', 'a', 'c', 'k'] : List Char).count 'a' ≤ 2 :=
  ⟨(filterWords_count_bounds [['a', 'b', 'a', 'c', 'k']]
      ⟨[], [], [('a', 1)], [('a', 2)], []⟩ ['a', 'b', 'a', 'c', 'k'] 'a' 1
      (by decide)).1 (by decide),
    (filterWords_count_bounds [['a', 'b', 'a', 'c', 'k']]
      ⟨[], [], [('a', 1)], [('a', 2)], []⟩ ['a', 'b', 'a', 'c', 'k'] 'a' 2
      (by decide)).2 (by decide)⟩

/-- C8: filtering any vocabulary through the empty constraints returns the
vocabulary unchanged, in order. -/
theorem filterWords_empty_id (words : List (List Char)) :
    filterWords words emptyConstraints = words := by
  unfold filterWords
  have hpass : ∀ w, passesFilter emptyConstraints w = true := fun w => by
    simp [passesFilter, emptyConstraints]
  calc words.filter (fun word => passesFilter emptyConstraints word)
      = words.filter (fun _ => true) := by
        apply List.filter_congr
        intro w _
        simp [hpass w]
    _ = words := List.filter_true words

theorem tileScan_fold_overall (l : List (Nat × Char)) (m : List (Char × Nat))
    (bp : List (Nat × List (Char × Nat))) (seen : List Char) (c : Char) :
    lookupD (l.foldl tileScan (m, bp, seen)).1 c 0
      = lookupD m c 0
        + (if c ∈ l.map Prod.snd ∧ ¬c ∈ seen then 1 else 0) := by
  induction l generalizing m bp seen with
  | nil => simp
  | cons p l ih =>
    rw [List.foldl_cons]
    by_cases hch : p.2 ∈ seen
    · simp only [tileScan, if_pos hch]
      rw [ih]
      by_cases hc : c = p.2
      · have hcs : c ∈ seen := hc ▸ hch
        simp [hcs]
      · simp only [List.map_cons, List.mem_cons]
        by_cases hcl : c ∈ l.map Prod.snd
        · simp [hcl, hc]
        · simp [hcl, hc]
    · simp only [tileScan, if_neg hch]
      rw [ih, lookupD_bump]
      simp only [List.map_cons, List.mem_cons, List.mem_append,
        List.mem_singleton]
      by_cases hc : c = p.2
      · have hcs : ¬c ∈ seen := hc ▸ hch
        simp [hc, hcs, hch]
      · by_cases hcl : c ∈ l.map Prod.snd
        · by_cases hcs : c ∈ seen
          · simp [hc, hcl, hcs]
          · simp [hc, hcl, hcs]
        · simp [hc, hcl]

theorem wordScan_fold_overall (candidates : List (List Char))
    (m : List (Char × Nat)) (bp : List (Nat × List (Char × Nat))) (c : Char) :
    lookupD (candidates.foldl wordScan (m, bp)).1 c 0
      = lookupD m c 0 + candidates.countP (fun w => decide (c ∈ w.take 5)) := by
  induction candidates generalizing m bp with
  | nil => simp
  | cons w ws ih =>
    rw [List.foldl_cons, List.countP_cons]
    have hstep : (wordScan (m, bp) w).1 = ((w.take 5).enum.foldl tileScan (m, bp, [])).1 := rfl
    have hbp : (wordScan (m, bp) w) =
        (((w.take 5).enum.foldl tileScan (m, bp, [])).1,
          ((w.take 5).enum.foldl tileScan (m, bp, [])).2.1) := rfl
    rw [hbp, ih]
    rw [tileScan_fold_overall, List.enum_map_snd]
    by_cases hc : c ∈ w.take 5
    · simp [hc]
      omega
    · simp [hc]

theorem bump_valuesPos {α : Type} [DecidableEq α] (m : List (α × Nat)) (k : α)
    (h : valuesPos m) : valuesPos (bump m k) := by
  induction m with
  | nil =>
    intro p hp
    simp only [bump, List.mem_singleton] at hp
    subst hp
    omega
  | cons q rest ih =>
    by_cases hqk : q.1 = k
    · intro p hp
      simp only [bump, if_pos hqk, List.mem_cons] at hp
      rcases hp with rfl | hp
      · simp
      · exact h p (List.mem_cons_of_mem _ hp)
    · intro p hp
      simp only [bump, if_neg hqk, List.mem_cons] at hp
      rcases hp with rfl | hp
      · exact h p (List.mem_cons_self _ _)
      · exact ih (fun q2 hq2 => h q2 (List.mem_cons_of_mem _ hq2)) p hp

theorem tileScan_fold_valuesPos (l : List (Nat × Char)) (m : List (Char × Nat))
    (bp : List (Nat × List (Char × Nat))) (seen : List Char)
    (h : valuesPos m) : valuesPos (l.foldl tileScan (m, bp, seen)).1 := by
  induction l generalizing m bp seen with
  | nil => exact h
  | cons p l ih =>
    rw [List.foldl_cons]
    by_cases hch : p.2 ∈ seen
    · simp only [tileScan, if_pos hch]
      exact ih m _ _ h
    · simp only [tileScan, if_neg hch]
      exact ih _ _ _ (bump_valuesPos m p.2 h)

theorem wordScan_fold_valuesPos (candidates : List (List Char))
    (m : List (Char × Nat)) (bp : List (Nat × List (Char × Nat)))
    (h : valuesPos m) : valuesPos (candidates.foldl wordScan (m, bp)).1 := by
  induction candidates generalizing m bp with
  | nil => exact h
  | cons w ws ih =>
    rw [List.foldl_cons]
    have hbp : (wordScan (m, bp) w) =
        (((w.take 5).enum.foldl tileScan (m, bp, [])).1,
          ((w.take 5).enum.foldl tileScan (m, bp, [])).2.1) := rfl
    rw [hbp]
    exact ih _ _ (tileScan_fold_valuesPos _ m bp [] h)

theorem lookup_of_valuesPos {α : Type} [DecidableEq α] (m : List (α × Nat))
    (c : α) (h : valuesPos m) :
    lookup m c = if lookupD m c 0 = 0 then none else some (lookupD m c 0) := by
  cases hlk : lookup m c with
  | none => simp [lookupD, hlk]
  | some k =>
    have hk : 0 < k := h (c, k) (lookup_mem hlk)
    simp only [lookupD, hlk, Option.getD_some]
    rw [if_neg (by omega)]

theorem lookup_div_map (m : List (Char × Nat)) (n : ℚ) (c : Char) :
    lookup (m.map (fun p => (p.1, (p.2 : ℚ) / n))) c
      = Option.map (fun x : Nat => (x : ℚ) / n) (lookup m c) := by
  induction m with
  | nil => simp [lookup]
  | cons p rest ih =>
    by_cases hpc : p.1 = c
    · simp [lookup, if_pos hpc]
    · simp [lookup, if_neg hpc, ih]

/-- C9: for a non-empty candidate list of 5-letter words, the overall
frequency `analyzeCandidates` reports for a letter is the number of
candidate words containing the letter at least once, divided by the number
of candidates — repeats within a word count once. -/
theorem analyzeCandidates_overall_freq (candidates : List (List Char)) (c : Char)
    (hne : candidates ≠ []) (hlen : ∀ w ∈ candidates, w.length = 5) :
    lookupD (analyzeCandidates candidates).overall c 0
      = (candidates.countP (fun w => decide (c ∈ w)) : ℚ) / (candidates.length : ℚ) := by
  have hn : candidates.length ≠ 0 := fun h => hne (List.length_eq_zero.mp h)
  have hcnt : candidates.countP (fun w => decide (c ∈ w.take 5))
      = candidates.countP (fun w => decide (c ∈ w)) := by
    apply List.countP_congr
    intro w hw
    rw [List.take_of_length_le (le_of_eq (hlen w hw))]
  have htal := wordScan_fold_overall candidates []
    [(0, []), (1, []), (2, []), (3, []), (4, [])] c
  have hpos := wordScan_fold_valuesPos candidates []
    [(0, []), (1, []), (2, []), (3, []), (4, [])] (by intro p hp; cases hp)
  simp only [lookupD, lookup] at htal
  simp only [Option.getD_none, Nat.zero_add] at htal
  simp only [analyzeCandidates, if_neg hn]
  set tal := candidates.foldl wordScan
    (([] : List (Char × Nat)), [(0, []), (1, []), (2, []), (3, []), (4, [])]) with htaldef
  simp only [lookupD]
  rw [lookup_div_map tal.1 (candidates.length : ℚ) c,
    lookup_of_valuesPos tal.1 c hpos]
  by_cases hz : lookupD tal.1 c 0 = 0
  · rw [if_pos hz]
    have : candidates.countP (fun w => decide (c ∈ w)) = 0 := by
      rw [← hcnt]
      have := htal
      simp only [lookupD] at hz
      omega
    simp [this]
  · rw [if_neg hz]
    simp only [Option.map_some', Option.getD_some]
    have : lookupD tal.1 c 0 = candidates.countP (fun w => decide (c ∈ w)) := by
      rw [← hcnt]
      simp only [lookupD]
      omega
    rw [this]

/-- Witness for C9: the two words "melee" and "crane" both contain 'e', and
"melee" counts it once, so the frequency of 'e' is 2 / 2. -/
theorem analyzeCandidates_overall_freq_witness :
    lookupD (analyzeCandidates
        [['m', 'e', 'l', 'e', 'e'], ['c', 'r', 'a', 'n', 'e']]).overall 'e' 0
      = (([['m', 'e', 'l', 'e', 'e'], ['c', 'r', 'a', 'n', 'e']] :
            List (List Char)).countP (fun w => decide ('e' ∈ w)) : ℚ)
        / ((2 : Nat) : ℚ) :=
  analyzeCandidates_overall_freq
    [['m', 'e', 'l', 'e', 'e'], ['c', 'r', 'a', 'n', 'e']] 'e'
    (by decide) (by decide)

theorem orderedInsert_perm {α : Type} (le : α → α → Bool) (a : α) (l : List α) :
    (orderedInsert le a l).Perm (a :: l) := by
  induction l with
  | nil => exact List.Perm.refl _
  | cons x xs ih =>
    simp only [orderedInsert]
    by_cases hax : le a x = true
    · rw [if_pos hax]
    · rw [if_neg hax]
      exact (ih.cons x).trans (List.Perm.swap a x xs)

theorem stableSort_perm {α : Type} (le : α → α → Bool) (l : List α) :
    (stableSort le l).Perm l := by
  induction l with
  | nil => exact List.Perm.refl _
  | cons x xs ih =>
    exact (orderedInsert_perm le x (stableSort le xs)).trans (ih.cons x)

theorem mem_orderedInsert {α : Type} (le : α → α → Bool) (a y : α) (l : List α) :
    y ∈ orderedInsert le a l ↔ y = a ∨ y ∈ l := by
  rw [(orderedInsert_perm le a l).mem_iff]
  simp

theorem orderedInsert_pairwise {α : Type} (le : α → α → Bool)
    (htot : ∀ a b, le a b = true ∨ le b a = true)
    (htrans : ∀ a b c, le a b = true → le b c = true → le a c = true)
    (a : α) (l : List α) (h : List.Pairwise (fun x y => le x y = true) l) :
    List.Pairwise (fun x y => le x y = true) (orderedInsert le a l) := by
  induction l with
  | nil => simp [orderedInsert]
  | cons x xs ih =>
    rcases List.pairwise_cons.mp h with ⟨hx, hxs⟩
    simp only [orderedInsert]
    by_cases hax : le a x = true
    · rw [if_pos hax]
      refine List.pairwise_cons.mpr ⟨?_, h⟩
      intro y hy
      rcases List.mem_cons.mp hy with rfl | hy
      · exact hax
      · exact htrans a x y hax (hx y hy)
    · rw [if_neg hax]
      refine List.pairwise_cons.mpr ⟨?_, ih hxs⟩
      intro y hy
      rcases (mem_orderedInsert le a y xs).mp hy with rfl | hy
      · rcases htot y x with h2 | h2
        · exact absurd h2 hax
        · exact h2
      · exact hx y hy

theorem stableSort_pairwise {α : Type} (le : α → α → Bool)
    (htot : ∀ a b, le a b = true ∨ le b a = true)
    (htrans : ∀ a b c, le a b = true → le b c = true → le a c = true)
    (l : List α) :
    List.Pairwise (fun x y => le x y = true) (stableSort le l) := by
  induction l with
  | nil => simp [stableSort]
  | cons x xs ih => exact orderedInsert_pairwise le htot htrans x _ ih

theorem orderedInsert_filter {α : Type} (le : α → α → Bool) (p : α → Bool)
    (a : α) (l : List α)
    (hcl : ∀ y, p a = true → p y = true → le a y = true) :
    (orderedInsert le a l).filter p
      = if p a then a :: l.filter p else l.filter p := by
  induction l with
  | nil =>
    simp only [orderedInsert, List.filter]
    by_cases hpa : p a = true
    · simp [hpa]
    · simp [Bool.eq_false_iff.mpr hpa]
  | cons x xs ih =>
    simp only [orderedInsert]
    by_cases hax : le a x = true
    · rw [if_pos hax]
      by_cases hpa : p a = true
      · simp [List.filter_cons, hpa]
      · simp [List.filter_cons, Bool.eq_false_iff.mpr hpa]
    · rw [if_neg hax]
      by_cases hpa : p a = true
      · have hpx : ¬p x = true := fun hpx => hax (hcl x hpa hpx)
        rw [if_pos hpa] at ih ⊢
        simp [List.filter_cons, Bool.eq_false_iff.mpr hpx, ih]
      · rw [if_neg hpa] at ih ⊢
        simp [List.filter_cons, ih]

theorem stableSort_filter {α : Type} (le : α → α → Bool) (p : α → Bool)
    (l : List α)
    (hcl : ∀ a y, p a = true → p y = true → le a y = true) :
    (stableSort le l).filter p = l.filter p := by
  induction l with
  | nil => rfl
  | cons x xs ih =>
    show (orderedInsert le x (stableSort le xs)).filter p = _
    rw [orderedInsert_filter le p x _ (hcl x), ih]
    by_cases hpx : p x = true
    · simp [List.filter_cons, hpx]
    · simp [List.filter_cons, Bool.eq_false_iff.mpr hpx]

theorem probeLE_iff (a b : ProbeWord) :
    probeLE a b = true ↔
      (b.partitions < a.partitions ∨
        (a.partitions = b.partitions ∧ a.avgGroupSize ≤ b.avgGroupSize)) := by
  simp [probeLE]

theorem probeLE_total (a b : ProbeWord) :
    probeLE a b = true ∨ probeLE b a = true := by
  rw [probeLE_iff, probeLE_iff]
  rcases Nat.lt_trichotomy a.partitions b.partitions with h | h | h
  · exact Or.inr (Or.inl h)
  · rcases le_total a.avgGroupSize b.avgGroupSize with h2 | h2
    · exact Or.inl (Or.inr ⟨h, h2⟩)
    · exact Or.inr (Or.inr ⟨h.symm, h2⟩)
  · exact Or.inl (Or.inl h)

theorem probeLE_trans (a b c : ProbeWord) (h1 : probeLE a b = true)
    (h2 : probeLE b c = true) : probeLE a c = true := by
  rw [probeLE_iff] at h1 h2 ⊢
  rcases h1 with h1 | ⟨h1, h1q⟩ <;> rcases h2 with h2 | ⟨h2, h2q⟩
  · exact Or.inl (by omega)
  · exact Or.inl (by omega)
  · exact Or.inl (by omega)
  · exact Or.inr ⟨by omega, le_trans h1q h2q⟩

/-- C5: with 1–150 candidates, `getTopProbeWords` is the `limit`-prefix of a
list that (i) is a permutation of the vocabulary's probe scores, (ii) is
sorted descending by partitions with ties ascending by average group size,
and (iii) lists fully tied entries in input vocabulary order (the filter by
any tie class is unchanged) — a unique characterization, so the ordering is
deterministic regardless of evaluation order. -/
theorem getTopProbeWords_sorted_stable_trunc
    (candidates vocabulary : List (List Char)) (limit : Nat)
    (h1 : 1 ≤ candidates.length) (h2 : candidates.length ≤ 150) :
    ∃ full : List ProbeWord,
      getTopProbeWords candidates vocabulary limit = full.take limit ∧
      full.Perm (vocabulary.map (scoreProbe candidates)) ∧
      List.Pairwise (fun a b => b.partitions < a.partitions ∨
        (a.partitions = b.partitions ∧ a.avgGroupSize ≤ b.avgGroupSize)) full ∧
      ∀ n : Nat, ∀ q : ℚ, full.filter
            (fun x => decide (x.partitions = n ∧ x.avgGroupSize = q))
          = (vocabulary.map (scoreProbe candidates)).filter
              (fun x => decide (x.partitions = n ∧ x.avgGroupSize = q)) := by
  refine ⟨stableSort probeLE (vocabulary.map (scoreProbe candidates)),
    ?_, ?_, ?_, ?_⟩
  · unfold getTopProbeWords
    rw [if_neg ?_]
    rintro (h | h) <;> omega
  · exact stableSort_perm probeLE _
  · have := stableSort_pairwise probeLE probeLE_total probeLE_trans
      (vocabulary.map (scoreProbe candidates))
    exact this.imp (fun h => (probeLE_iff _ _).mp h)
  · intro n q
    apply stableSort_filter
    intro a y ha hy
    simp only [decide_eq_true_eq] at ha hy
    rw [probeLE_iff]
    exact Or.inr ⟨by omega, by rw [ha.2, hy.2]⟩

/-- Witness for C5 at a one-word candidate and vocabulary list. -/
theorem getTopProbeWords_sorted_stable_trunc_witness :
    ∃ full : List ProbeWord,
      getTopProbeWords [['c', 'r', 'a', 'n', 'e']] [['c', 'r', 'a', 'n', 'e']] 1
          = full.take 1 ∧
      full.Perm ([['c', 'r', 'a', 'n', 'e']].map
        (scoreProbe [['c', 'r', 'a', 'n', 'e']])) ∧
      List.Pairwise (fun a b => b.partitions < a.partitions ∨
        (a.partitions = b.partitions ∧ a.avgGroupSize ≤ b.avgGroupSize)) full ∧
      ∀ n : Nat, ∀ q : ℚ, full.filter
            (fun x => decide (x.partitions = n ∧ x.avgGroupSize = q))
          = (([['c', 'r', 'a', 'n', 'e']] : List (List Char)).map
              (scoreProbe [['c', 'r', 'a', 'n', 'e']])).filter
              (fun x => decide (x.partitions = n ∧ x.avgGroupSize = q)) :=
  getTopProbeWords_sorted_stable_trunc [['c', 'r', 'a', 'n', 'e']]
    [['c', 'r', 'a', 'n', 'e']] 1 (by decide) (by decide)

theorem mem_delS (s : List Char) (c x : Char) :
    x ∈ delS s c ↔ x ∈ s ∧ ¬x = c := by
  simp [delS]

theorem foldl_shrink_not_mem {β : Type} (f : List Char → β → List Char)
    (hf : ∀ s p x, x ∈ f s p → x ∈ s)
    (l : List β) (s : List Char) (x : Char) (hx : ¬x ∈ s) :
    ¬x ∈ l.foldl f s := by
  induction l generalizing s with
  | nil => exact hx
  | cons p l ih => exact ih (f s p) (fun h => hx (hf s p x h))

theorem foldl_shrink_mem {β : Type} (f : List Char → β → List Char)
    (hf : ∀ s p x, x ∈ f s p → x ∈ s)
    (l : List β) (s : List Char) (x : Char) (hx : x ∈ l.foldl f s) :
    x ∈ s := by
  induction l generalizing s with
  | nil => exact hx
  | cons p l ih => exact hf s p x (ih (f s p) hx)

theorem foldl_shrink_removed {β : Type} (f : List Char → β → List Char)
    (hf : ∀ s p x, x ∈ f s p → x ∈ s)
    (l : List β) (s : List Char) (x : Char) (p0 : β) (hp0 : p0 ∈ l)
    (hrem : ∀ s2, ¬x ∈ f s2 p0) :
    ¬x ∈ l.foldl f s := by
  obtain ⟨l1, l2, rfl⟩ := List.append_of_mem hp0
  rw [List.foldl_append, List.foldl_cons]
  exact foldl_shrink_not_mem f hf l2 _ x (hrem _)

/-- C3: after derivation, a letter in `excluded` has no (or zero) minimum
count, is not a green letter and is not a yellow key; consequently
`detectConflicts` on derived constraints only ever reports
impossible-count conflicts, never green-also-excluded or
yellow-also-excluded. -/
theorem buildConstraints_excluded_clean (grid : List (List TileData)) :
    (∀ c, c ∈ (buildConstraintsFromGrid grid).excluded →
      (lookup (buildConstraintsFromGrid grid).minCount c = none ∨
        lookup (buildConstraintsFromGrid grid).minCount c = some 0) ∧
      ¬c ∈ (buildConstraintsFromGrid grid).greens.map Prod.snd ∧
      ¬c ∈ (buildConstraintsFromGrid grid).yellowPositions.map Prod.fst) ∧
    (∀ cf ∈ detectConflicts (buildConstraintsFromGrid grid),
      cf.ctype = ConflictType.impossibleCount) := by
  set cs := grid.foldl processRow emptyConstraints with hcs
  have hminF : (buildConstraintsFromGrid grid).minCount = cs.minCount := rfl
  have hgrF : (buildConstraintsFromGrid grid).greens = cs.greens := rfl
  have hyF : (buildConstraintsFromGrid grid).yellowPositions = cs.yellowPositions := rfl
  have hexF : (buildConstraintsFromGrid grid).excluded
      = cs.greens.foldl (fun ex p => delS ex p.2)
          (cs.yellowPositions.foldl (fun ex p => delS ex p.1)
            (cs.minCount.foldl
              (fun ex p =>
                if 0 < lookupD cs.minCount p.1 0 then delS ex p.1 else ex)
              cs.excluded)) := rfl
  have hf1 : ∀ (s : List Char) (p : Char × Nat) (x : Char),
      x ∈ (if 0 < lookupD cs.minCount p.1 0 then delS s p.1 else s) → x ∈ s := by
    intro s p x h
    by_cases hc : 0 < lookupD cs.minCount p.1 0
    · rw [if_pos hc] at h
      exact ((mem_delS _ _ _).mp h).1
    · rwa [if_neg hc] at h
  have hf2 : ∀ (s : List Char) (p : Char × List Nat) (x : Char),
      x ∈ delS s p.1 → x ∈ s := fun s p x h => ((mem_delS _ _ _).mp h).1
  have hf3 : ∀ (s : List Char) (p : Nat × Char) (x : Char),
      x ∈ delS s p.2 → x ∈ s := fun s p x h => ((mem_delS _ _ _).mp h).1
  have hmain : ∀ c, c ∈ (buildConstraintsFromGrid grid).excluded →
      (lookup (buildConstraintsFromGrid grid).minCount c = none ∨
        lookup (buildConstraintsFromGrid grid).minCount c = some 0) ∧
      ¬c ∈ (buildConstraintsFromGrid grid).greens.map Prod.snd ∧
      ¬c ∈ (buildConstraintsFromGrid grid).yellowPositions.map Prod.fst := by
    intro c hc
    rw [hexF] at hc
    have hc2 : c ∈ cs.yellowPositions.foldl (fun ex p => delS ex p.1)
        (cs.minCount.foldl
          (fun ex p => if 0 < lookupD cs.minCount p.1 0 then delS ex p.1 else ex)
          cs.excluded) :=
      foldl_shrink_mem _ hf3 cs.greens _ c hc
    have hc1 : c ∈ cs.minCount.foldl
        (fun ex p => if 0 < lookupD cs.minCount p.1 0 then delS ex p.1 else ex)
        cs.excluded :=
      foldl_shrink_mem _ hf2 cs.yellowPositions _ c hc2
    refine ⟨?_, ?_, ?_⟩
    · rw [hminF]
      cases hl : lookup cs.minCount c with
      | none => exact Or.inl rfl
      | some k =>
        refine Or.inr ?_
        by_contra hk0
        have hkpos : 0 < k := by
          rcases Nat.eq_zero_or_pos k with rfl | h
          · exact absurd rfl hk0
          · exact h
        have hp0 : (c, k) ∈ cs.minCount := lookup_mem hl
        have hrem : ∀ s2 : List Char,
            ¬c ∈ (if 0 < lookupD cs.minCount (c, k).1 0 then delS s2 (c, k).1
              else s2) := by
          intro s2
          have hld : lookupD cs.minCount c 0 = k := by simp [lookupD, hl]
          rw [if_pos (by simp only [hld]; exact hkpos)]
          intro hmem
          exact ((mem_delS _ _ _).mp hmem).2 rfl
        exact foldl_shrink_removed _ hf1 cs.minCount cs.excluded c (c, k) hp0
          hrem hc1
    · rw [hgrF]
      intro hg
      rcases List.mem_map.mp hg with ⟨p0, hp0, hp0c⟩
      have hrem : ∀ s2 : List Char, ¬c ∈ delS s2 p0.2 := by
        intro s2 hmem
        exact ((mem_delS _ _ _).mp hmem).2 hp0c.symm
      exact foldl_shrink_removed _ hf3 cs.greens _ c p0 hp0 hrem hc
    · rw [hyF]
      intro hy
      rcases List.mem_map.mp hy with ⟨p0, hp0, hp0c⟩
      have hrem : ∀ s2 : List Char, ¬c ∈ delS s2 p0.1 := by
        intro s2 hmem
        exact ((mem_delS _ _ _).mp hmem).2 hp0c.symm
      exact foldl_shrink_removed _ hf2 cs.yellowPositions _ c p0 hp0 hrem hc2
  refine ⟨hmain, ?_⟩
  intro cf hcf
  unfold detectConflicts at hcf
  rcases List.mem_append.mp hcf with hcf2 | hcf3
  · rcases List.mem_append.mp hcf2 with hcfA | hcfB
    · rcases List.mem_filterMap.mp hcfA with ⟨p, hp, hsome⟩
      by_cases hpe : p.2 ∈ (buildConstraintsFromGrid grid).excluded
      · exact absurd (List.mem_map.mpr ⟨p, hp, rfl⟩) (hmain p.2 hpe).2.1
      · rw [if_neg hpe] at hsome
        cases hsome
    · rcases List.mem_filterMap.mp hcfB with ⟨p, hp, hsome⟩
      by_cases hpe : p.1 ∈ (buildConstraintsFromGrid grid).excluded
      · exact absurd (List.mem_map.mpr ⟨p, hp, rfl⟩) (hmain p.1 hpe).2.2
      · rw [if_neg hpe] at hsome
        cases hsome
  · rcases List.mem_filterMap.mp hcf3 with ⟨p, hp, hsome⟩
    cases hmx : lookup (buildConstraintsFromGrid grid).maxCount p.1 with
    | none =>
      simp only [hmx] at hsome
      exact Option.noConfusion hsome
    | some mx =>
      simp only [hmx] at hsome
      by_cases hlt : mx < lookupD (buildConstraintsFromGrid grid).minCount p.1 0
      · rw [if_pos hlt] at hsome
        injection hsome with h2
        rw [← h2]
      · rw [if_neg hlt] at hsome
        exact Option.noConfusion hsome

/-- Witness for C3 at `demoGrid`: 'z' is excluded and carries no minimum
count, no green and no yellow evidence; the only conflict kind that can be
reported is impossible-count (here for 'l'). -/
theorem buildConstraints_excluded_clean_witness :
    ((lookup (buildConstraintsFromGrid demoGrid).minCount 'z' = none ∨
      lookup (buildConstraintsFromGrid demoGrid).minCount 'z' = some 0) ∧
      'z' ∉ (buildConstraintsFromGrid demoGrid).greens.map Prod.snd ∧
      'z' ∉ (buildConstraintsFromGrid demoGrid).yellowPositions.map Prod.fst) ∧
    (Conflict.mk ConflictType.impossibleCount 'l').ctype
      = ConflictType.impossibleCount :=
  ⟨(buildConstraints_excluded_clean demoGrid).1 'z' (by decide),
    (buildConstraints_excluded_clean demoGrid).2
      ⟨ConflictType.impossibleCount, 'l'⟩ (by decide)⟩

theorem tileApply_minCount (conf : List (Char × Nat)) (cs : Constraints)
    (p : Nat × TileData) :
    (tileApply conf cs p).minCount = cs.minCount ∧
      (tileApply conf cs p).maxCount = cs.maxCount := by
  rcases p with ⟨i, t⟩
  rcases t with ⟨letter, state⟩
  cases letter with
  | none => exact ⟨rfl, rfl⟩
  | some c =>
    cases state
    case empty => exact ⟨rfl, rfl⟩
    case unknown => exact ⟨rfl, rfl⟩
    case green => exact ⟨rfl, rfl⟩
    case yellow => exact ⟨rfl, rfl⟩
    case grey =>
      simp only [tileApply]
      split <;> exact ⟨rfl, rfl⟩

theorem applyTiles_fold_minCount (l : List (Nat × TileData))
    (cs : Constraints) (conf : List (Char × Nat)) :
    (l.foldl (tileApply conf) cs).minCount = cs.minCount ∧
      (l.foldl (tileApply conf) cs).maxCount = cs.maxCount := by
  induction l generalizing cs with
  | nil => exact ⟨rfl, rfl⟩
  | cons p l ih =>
    rw [List.foldl_cons]
    rcases ih (tileApply conf cs p) with ⟨h1, h2⟩
    rcases tileApply_minCount conf cs p with ⟨h3, h4⟩
    exact ⟨h1.trans h3, h2.trans h4⟩

theorem tally_fold_lookupD (row : List TileData)
    (m1 m2 : List (Char × Nat)) (c : Char) :
    lookupD (row.foldl tallyStep (m1, m2)).1 c 0
        = lookupD m1 c 0 + rowConfirmedCount c row ∧
      lookupD (row.foldl tallyStep (m1, m2)).2 c 0
        = lookupD m2 c 0 + rowGreyCount c row := by
  induction row generalizing m1 m2 with
  | nil => simp [rowConfirmedCount, rowGreyCount]
  | cons t row ih =>
    rw [List.foldl_cons]
    rcases t with ⟨letter, state⟩
    cases letter with
    | none =>
      have hstep : tallyStep (m1, m2) ⟨none, state⟩ = (m1, m2) := rfl
      rw [hstep]
      have hthis := ih m1 m2
      have h1 : ¬((none : Option Char) = some c ∧
          (state = TileState.green ∨ state = TileState.yellow)) :=
        fun h => Option.noConfusion h.1
      have h2 : ¬((none : Option Char) = some c ∧ state = TileState.grey) :=
        fun h => Option.noConfusion h.1
      simp only [rowConfirmedCount, rowGreyCount, List.countP_cons,
        decide_eq_true_eq] at hthis ⊢
      rw [if_neg h1, if_neg h2]
      omega
    | some d =>
      cases state
      case empty =>
        have hstep : tallyStep (m1, m2) ⟨some d, TileState.empty⟩ = (m1, m2) := rfl
        rw [hstep]
        have hthis := ih m1 m2
        have h1 : ¬((some d : Option Char) = some c ∧
            (TileState.empty = TileState.green ∨
              TileState.empty = TileState.yellow)) :=
          fun h => by rcases h.2 with h2 | h2 <;> cases h2
        have h2 : ¬((some d : Option Char) = some c ∧
            TileState.empty = TileState.grey) := fun h => by cases h.2
        simp only [rowConfirmedCount, rowGreyCount, List.countP_cons,
          decide_eq_true_eq] at hthis ⊢
        rw [if_neg h1, if_neg h2]
        omega
      case unknown =>
        have hstep : tallyStep (m1, m2) ⟨some d, TileState.unknown⟩ = (m1, m2) := rfl
        rw [hstep]
        have hthis := ih m1 m2
        have h1 : ¬((some d : Option Char) = some c ∧
            (TileState.unknown = TileState.green ∨
              TileState.unknown = TileState.yellow)) :=
          fun h => by rcases h.2 with h2 | h2 <;> cases h2
        have h2 : ¬((some d : Option Char) = some c ∧
            TileState.unknown = TileState.grey) := fun h => by cases h.2
        simp only [rowConfirmedCount, rowGreyCount, List.countP_cons,
          decide_eq_true_eq] at hthis ⊢
        rw [if_neg h1, if_neg h2]
        omega
      case green =>
        have hstep : tallyStep (m1, m2) ⟨some d, TileState.green⟩
            = (bump m1 d, m2) := rfl
        rw [hstep]
        have hthis := ih (bump m1 d) m2
        rw [lookupD_bump] at hthis
        have h2 : ¬((some d : Option Char) = some c ∧
            TileState.green = TileState.grey) := fun h => by cases h.2
        simp only [rowConfirmedCount, rowGreyCount, List.countP_cons,
          decide_eq_true_eq] at hthis ⊢
        rw [if_neg h2]
        by_cases hdc : d = c
        · subst hdc
          simp only [Option.some.injEq, eq_self_iff_true, true_and, and_true,
            true_or, or_true, if_true] at hthis ⊢
          omega
        · rw [if_neg (fun h => hdc (Option.some.inj h.1))]
          rw [if_neg (fun h => hdc h.symm)] at hthis
          omega
      case yellow =>
        have hstep : tallyStep (m1, m2) ⟨some d, TileState.yellow⟩
            = (bump m1 d, m2) := rfl
        rw [hstep]
        have hthis := ih (bump m1 d) m2
        rw [lookupD_bump] at hthis
        have h2 : ¬((some d : Option Char) = some c ∧
            TileState.yellow = TileState.grey) := fun h => by cases h.2
        simp only [rowConfirmedCount, rowGreyCount, List.countP_cons,
          decide_eq_true_eq] at hthis ⊢
        rw [if_neg h2]
        by_cases hdc : d = c
        · subst hdc
          simp only [Option.some.injEq, eq_self_iff_true, true_and, and_true,
            true_or, or_true, if_true] at hthis ⊢
          omega
        · rw [if_neg (fun h => hdc (Option.some.inj h.1))]
          rw [if_neg (fun h => hdc h.symm)] at hthis
          omega
      case grey =>
        have hstep : tallyStep (m1, m2) ⟨some d, TileState.grey⟩
            = (m1, bump m2 d) := rfl
        rw [hstep]
        have hthis := ih m1 (bump m2 d)
        rw [lookupD_bump] at hthis
        have h1 : ¬((some d : Option Char) = some c ∧
            (TileState.grey = TileState.green ∨
              TileState.grey = TileState.yellow)) :=
          fun h => by rcases h.2 with h2 | h2 <;> cases h2
        simp only [rowConfirmedCount, rowGreyCount, List.countP_cons,
          decide_eq_true_eq] at hthis ⊢
        rw [if_neg h1]
        by_cases hdc : d = c
        · subst hdc
          simp only [Option.some.injEq, eq_self_iff_true, true_and, and_true,
            true_or, or_true, if_true] at hthis ⊢
          omega
        · rw [if_neg (fun h => hdc (Option.some.inj h.1))]
          rw [if_neg (fun h => hdc h.symm)] at hthis
          omega

theorem bump_keysOf_nodup {α : Type} [DecidableEq α] (m : List (α × Nat))
    (k : α) (h : (keysOf m).Nodup) : (keysOf (bump m k)).Nodup := by
  rw [bump_keysOf]
  by_cases hk : k ∈ keysOf m
  · rwa [if_pos hk]
  · rw [if_neg hk]
    simp [List.nodup_append, h, hk]

theorem tally_fold_keys_nodup (row : List TileData)
    (m1 m2 : List (Char × Nat)) (h1 : (keysOf m1).Nodup) :
    (keysOf (row.foldl tallyStep (m1, m2)).1).Nodup := by
  induction row generalizing m1 m2 with
  | nil => exact h1
  | cons t row ih =>
    rw [List.foldl_cons]
    rcases t with ⟨letter, state⟩
    cases letter with
    | none => exact ih m1 m2 h1
    | some d =>
      cases state
      case empty => exact ih m1 m2 h1
      case unknown => exact ih m1 m2 h1
      case green => exact ih (bump m1 d) m2 (bump_keysOf_nodup m1 d h1)
      case yellow => exact ih (bump m1 d) m2 (bump_keysOf_nodup m1 d h1)
      case grey => exact ih m1 (bump m2 d) h1

theorem tally_fold_valuesPos1 (row : List TileData)
    (m1 m2 : List (Char × Nat)) (h : valuesPos m1) :
    valuesPos (row.foldl tallyStep (m1, m2)).1 := by
  induction row generalizing m1 m2 with
  | nil => exact h
  | cons t row ih =>
    rw [List.foldl_cons]
    rcases t with ⟨letter, state⟩
    cases letter with
    | none => exact ih m1 m2 h
    | some d =>
      cases state
      case empty => exact ih m1 m2 h
      case unknown => exact ih m1 m2 h
      case green => exact ih (bump m1 d) m2 (bump_valuesPos m1 d h)
      case yellow => exact ih (bump m1 d) m2 (bump_valuesPos m1 d h)
      case grey => exact ih m1 (bump m2 d) h

theorem lookup_tally_conf (row : List TileData) (c : Char) :
    lookup (rowTallies row).1 c
      = if rowConfirmedCount c row = 0 then none
        else some (rowConfirmedCount c row) := by
  have hpos : valuesPos (rowTallies row).1 :=
    tally_fold_valuesPos1 row [] [] (by intro p hp; cases hp)
  have hld : lookupD (rowTallies row).1 c 0 = rowConfirmedCount c row := by
    have := (tally_fold_lookupD row [] [] c).1
    simpa [rowTallies, lookupD, lookup] using this
  rw [lookup_of_valuesPos _ c hpos, hld]

theorem lookupD_tally_grey (row : List TileData) (c : Char) :
    lookupD (rowTallies row).2 c 0 = rowGreyCount c row := by
  have := (tally_fold_lookupD row [] [] c).2
  simpa [rowTallies, lookupD, lookup] using this

theorem lookup_setR_self {α β : Type} [DecidableEq α] (m : List (α × β))
    (k : α) (v : β) : lookup (setR m k v) k = some v := by
  induction m with
  | nil => simp [setR, lookup]
  | cons p rest ih =>
    by_cases hpk : p.1 = k
    · simp [setR, if_pos hpk, lookup]
    · simp only [setR, if_neg hpk, lookup]
      exact ih

theorem lookup_setR_ne {α β : Type} [DecidableEq α] (m : List (α × β))
    (k c : α) (v : β) (h : ¬k = c) : lookup (setR m k v) c = lookup m c := by
  induction m with
  | nil => simp [setR, lookup, if_neg h]
  | cons p rest ih =>
    by_cases hpk : p.1 = k
    · have hpc : ¬p.1 = c := fun hh => h (hpk ▸ hh)
      simp only [setR, if_pos hpk, lookup]
      rw [if_neg h, if_neg hpc]
    · simp only [setR, if_neg hpk, lookup]
      by_cases hpc : p.1 = c
      · rw [if_pos hpc, if_pos hpc]
      · rw [if_neg hpc, if_neg hpc]
        exact ih

theorem minMaxStep_lookup_ne (grey mins maxs : List (Char × Nat))
    (p : Char × Nat) (c : Char) (hpc : ¬p.1 = c) :
    lookup (minMaxStep grey (mins, maxs) p).1 c = lookup mins c ∧
      lookup (minMaxStep grey (mins, maxs) p).2 c = lookup maxs c := by
  constructor
  · simp only [minMaxStep]
    exact lookup_setR_ne mins p.1 c _ hpc
  · simp only [minMaxStep]
    by_cases hg : 0 < lookupD grey p.1 0
    · rw [if_pos hg]
      cases hlk : lookup maxs p.1 with
      | none =>
        simp only [hlk]
        exact lookup_setR_ne maxs p.1 c p.2 hpc
      | some old =>
        simp only [hlk]
        by_cases hlt : p.2 < old
        · rw [if_pos hlt]
          exact lookup_setR_ne maxs p.1 c p.2 hpc
        · rw [if_neg hlt]
    · rw [if_neg hg]

theorem updateMinMax_not_mem (conf grey mins maxs : List (Char × Nat))
    (c : Char) (h : ¬c ∈ keysOf conf) :
    lookup (updateMinMax mins maxs conf grey).1 c = lookup mins c ∧
      lookup (updateMinMax mins maxs conf grey).2 c = lookup maxs c := by
  induction conf generalizing mins maxs with
  | nil => exact ⟨rfl, rfl⟩
  | cons p rest ih =>
    have hpc : ¬p.1 = c := by
      intro hh
      exact h (by simp [keysOf, hh])
    have hrest : ¬c ∈ keysOf rest := by
      intro hh
      apply h
      simp only [keysOf, List.map_cons, List.mem_cons]
      exact Or.inr hh
    have hstep : updateMinMax mins maxs (p :: rest) grey
        = updateMinMax (minMaxStep grey (mins, maxs) p).1
            (minMaxStep grey (mins, maxs) p).2 rest grey := rfl
    rw [hstep]
    rcases ih (minMaxStep grey (mins, maxs) p).1
      (minMaxStep grey (mins, maxs) p).2 hrest with ⟨h1, h2⟩
    rcases minMaxStep_lookup_ne grey mins maxs p c hpc with ⟨h3, h4⟩
    exact ⟨h1.trans h3, h2.trans h4⟩

theorem updateMinMax_lookup (conf grey mins maxs : List (Char × Nat))
    (c : Char) (hnd : (keysOf conf).Nodup) :
    lookup (updateMinMax mins maxs conf grey).1 c
        = (match lookup conf c with
           | none => lookup mins c
           | some k => some (max (lookupD mins c 0) k)) ∧
      lookup (updateMinMax mins maxs conf grey).2 c
        = (match lookup conf c with
           | none => lookup maxs c
           | some k =>
             if 0 < lookupD grey c 0 then
               some (match lookup maxs c with
                 | none => k
                 | some old => min old k)
             else lookup maxs c) := by
  induction conf generalizing mins maxs with
  | nil => exact ⟨rfl, rfl⟩
  | cons p rest ih =>
    have hstep : updateMinMax mins maxs (p :: rest) grey
        = updateMinMax (minMaxStep grey (mins, maxs) p).1
            (minMaxStep grey (mins, maxs) p).2 rest grey := rfl
    have hnd2 : (keysOf rest).Nodup ∧ ¬p.1 ∈ keysOf rest := by
      have h2 := List.nodup_cons.mp (show (p.1 :: keysOf rest).Nodup from hnd)
      exact ⟨h2.2, h2.1⟩
    rw [hstep]
    by_cases hpc : p.1 = c
    · subst hpc
      have hlc : lookup (p :: rest) p.1 = some p.2 := by simp [lookup]
      rcases updateMinMax_not_mem rest grey (minMaxStep grey (mins, maxs) p).1
        (minMaxStep grey (mins, maxs) p).2 p.1 hnd2.2 with ⟨h1, h2⟩
      constructor
      · rw [h1]
        simp only [hlc, minMaxStep]
        exact lookup_setR_self mins p.1 _
      · rw [h2]
        simp only [hlc, minMaxStep]
        by_cases hg : 0 < lookupD grey p.1 0
        · rw [if_pos hg, if_pos hg]
          cases hlk : lookup maxs p.1 with
          | none =>
            simp only [hlk]
            exact lookup_setR_self maxs p.1 p.2
          | some old =>
            simp only [hlk]
            by_cases hlt : p.2 < old
            · rw [if_pos hlt, lookup_setR_self maxs p.1 p.2,
                Nat.min_eq_right (Nat.le_of_lt hlt)]
            · rw [if_neg hlt, hlk, Nat.min_eq_left (Nat.le_of_not_lt hlt)]
        · rw [if_neg hg, if_neg hg]
    · have hlc : lookup (p :: rest) c = lookup rest c := by
        simp [lookup, if_neg hpc]
      rcases ih (minMaxStep grey (mins, maxs) p).1
        (minMaxStep grey (mins, maxs) p).2 hnd2.1 with ⟨h1, h2⟩
      rcases minMaxStep_lookup_ne grey mins maxs p c hpc with ⟨h3, h4⟩
      constructor
      · rw [h1]
        simp only [hlc]
        cases hr : lookup rest c with
        | none =>
          simp only [hr]
          exact h3
        | some k =>
          simp only [hr]
          rw [show lookupD (minMaxStep grey (mins, maxs) p).1 c 0
              = lookupD mins c 0 from by simp [lookupD, h3]]
      · rw [h2]
        simp only [hlc]
        cases hr : lookup rest c with
        | none =>
          simp only [hr]
          exact h4
        | some k =>
          simp only [hr]
          rw [h4]

theorem rowSkipped_conf_zero (row : List TileData) (c : Char)
    (hsk : rowSkipped row = true) : rowConfirmedCount c row = 0 := by
  rw [rowConfirmedCount, List.countP_eq_zero]
  intro t ht
  have hall := List.all_eq_true.mp hsk t ht
  simp only [decide_eq_true_eq] at hall ⊢
  rintro ⟨hl, hst⟩
  rcases hall with h | h | h
  · rw [hl] at h
    exact Option.noConfusion h
  · rcases hst with h2 | h2 <;> (rw [h] at h2; cases h2)
  · rcases hst with h2 | h2 <;> (rw [h] at h2; cases h2)

theorem processRow_lookup (cs : Constraints) (row : List TileData) (c : Char) :
    lookup (processRow cs row).minCount c = minStep c (lookup cs.minCount c) row ∧
      lookup (processRow cs row).maxCount c
        = maxStep c (lookup cs.maxCount c) row := by
  by_cases hsk : rowSkipped row = true
  · have hconf := rowSkipped_conf_zero row c hsk
    simp only [processRow, if_pos hsk, minStep, maxStep, hconf]
    constructor <;> simp
  · have hnd : (keysOf (rowTallies row).1).Nodup :=
      tally_fold_keys_nodup row [] [] (by simp [keysOf])
    rcases updateMinMax_lookup (rowTallies row).1 (rowTallies row).2
      cs.minCount cs.maxCount c hnd with ⟨hU1, hU2⟩
    have hL1 : lookup (processRow cs row).minCount c
        = lookup (updateMinMax cs.minCount cs.maxCount
            (rowTallies row).1 (rowTallies row).2).1 c := by
      simp only [processRow, if_neg hsk, applyTiles]
      rw [(applyTiles_fold_minCount row.enum _ (rowTallies row).1).1]
    have hL2 : lookup (processRow cs row).maxCount c
        = lookup (updateMinMax cs.minCount cs.maxCount
            (rowTallies row).1 (rowTallies row).2).2 c := by
      simp only [processRow, if_neg hsk, applyTiles]
      rw [(applyTiles_fold_minCount row.enum _ (rowTallies row).1).2]
    constructor
    · rw [hL1, hU1, lookup_tally_conf]
      by_cases hc0 : rowConfirmedCount c row = 0
      · rw [if_pos hc0]
        simp [minStep, hc0]
      · rw [if_neg hc0]
        have hms : minStep c (lookup cs.minCount c) row
            = some (max ((lookup cs.minCount c).getD 0)
                (rowConfirmedCount c row)) := by
          simp only [minStep, if_pos (Nat.pos_of_ne_zero hc0)]
        rw [hms]
        rfl
    · rw [hL2, hU2, lookup_tally_conf]
      by_cases hc0 : rowConfirmedCount c row = 0
      · rw [if_pos hc0]
        simp [maxStep, hc0]
      · rw [if_neg hc0]
        show (if 0 < lookupD (rowTallies row).2 c 0 then
            some (match lookup cs.maxCount c with
              | none => rowConfirmedCount c row
              | some old => min old (rowConfirmedCount c row))
          else lookup cs.maxCount c) = maxStep c (lookup cs.maxCount c) row
        rw [lookupD_tally_grey]
        by_cases hg : 0 < rowGreyCount c row
        · rw [if_pos hg]
          simp only [maxStep, if_pos (And.intro (Nat.pos_of_ne_zero hc0) hg)]
        · rw [if_neg hg]
          have hng : ¬(0 < rowConfirmedCount c row ∧ 0 < rowGreyCount c row) :=
            fun h => hg h.2
          simp only [maxStep, if_neg hng]

theorem foldl_processRow_lookup (grid : List (List TileData))
    (cs : Constraints) (c : Char) :
    lookup (grid.foldl processRow cs).minCount c
        = grid.foldl (minStep c) (lookup cs.minCount c) ∧
      lookup (grid.foldl processRow cs).maxCount c
        = grid.foldl (maxStep c) (lookup cs.maxCount c) := by
  induction grid generalizing cs with
  | nil => exact ⟨rfl, rfl⟩
  | cons row grid ih =>
    rcases ih (processRow cs row) with ⟨h1, h2⟩
    rcases processRow_lookup cs row c with ⟨h3, h4⟩
    constructor
    · rw [List.foldl_cons, List.foldl_cons, h1, h3]
    · rw [List.foldl_cons, List.foldl_cons, h2, h4]

/-- C1: for every grid and letter, the derived `minCount` entry is the fold
over rows raising the running minimum to each row's confirmed count, and
the derived `maxCount` entry is the fold tightening the running maximum
(+infinity when unset) to the confirmed count of each row that also shows a
grey copy — i.e. the max across rows of confirmed counts, and the tightest
exact bound ever proven. In particular a row with a letter three times, two
confirmed and one grey, yields `minCount = 2` and `maxCount = 2`. -/
theorem buildConstraints_min_max_counts :
    (∀ (grid : List (List TileData)) (c : Char),
      lookup (buildConstraintsFromGrid grid).minCount c
          = grid.foldl (minStep c) none ∧
        lookup (buildConstraintsFromGrid grid).maxCount c
          = grid.foldl (maxStep c) none) ∧
    (lookup (buildConstraintsFromGrid [demoDupRow]).minCount 'l' = some 2 ∧
      lookup (buildConstraintsFromGrid [demoDupRow]).maxCount 'l' = some 2) := by
  constructor
  · intro grid c
    have hmin : (buildConstraintsFromGrid grid).minCount
        = (grid.foldl processRow emptyConstraints).minCount := rfl
    have hmax : (buildConstraintsFromGrid grid).maxCount
        = (grid.foldl processRow emptyConstraints).maxCount := rfl
    rw [hmin, hmax]
    have h := foldl_processRow_lookup grid emptyConstraints c
    simpa [emptyConstraints, lookup] using h
  · exact ⟨by decide, by decide⟩

end WH
